import Mathlib

/-!
Verification of the reticulum neural-network core (Go).  Float64 values are
modelled as exact rationals (`ℚ`) except where the source applies
transcendental functions, in which case the definitions are generic in the
field and instantiated at `ℝ`.  Go slices are Lean lists; a Go runtime panic
(slice index out of range, explicit `panic`) is modelled as `Option.none`.
-/

namespace Reticulum

/-- A 3-D tensor of values (`w`) and gradients (`dw`) stored as two parallel
flat buffers, mirroring `Volume` in `volume/vol.go`. -/
structure Volume where
  sx : Nat
  sy : Nat
  depth : Nat
  w : List ℚ
  dw : List ℚ
  deriving Repr, DecidableEq

/-- Empty volume, used as the default when indexing a list of volumes. -/
def emptyVolume : Volume := ⟨0, 0, 0, [], []⟩

/-- Flat index of a coordinate, from `Volume.getIndex` in `volume/vol.go`:
`((v.sx*y)+x)*v.depth + d`.  Coordinates are Go `int`s, hence `Int`. -/
def Volume.getIndex (v : Volume) (x y d : Int) : Int :=
  ((v.sx : Int) * y + x) * (v.depth : Int) + d

/-- Weight read `Get(x,y,d) = w[getIndex(x,y,d)]`; `none` models the slice
bounds panic of the Go runtime (the method itself performs no check). -/
def Volume.Get? (v : Volume) (x y d : Int) : Option ℚ :=
  let i := v.getIndex x y d
  if 0 ≤ i then v.w[i.toNat]? else none

/-- Weight write `Set(x,y,d,val)`; `none` models the slice bounds panic. -/
def Volume.Set? (v : Volume) (x y d : Int) (val : ℚ) : Option Volume :=
  let i := v.getIndex x y d
  if 0 ≤ i ∧ i.toNat < v.w.length then
    some { v with w := v.w.set i.toNat val }
  else none

/-- Gradient read `GetGrad(x,y,d) = dw[getIndex(x,y,d)]`. -/
def Volume.GetGrad? (v : Volume) (x y d : Int) : Option ℚ :=
  let i := v.getIndex x y d
  if 0 ≤ i then v.dw[i.toNat]? else none

/-- Options controlling `NewVolume`, from `VolumeOptions` in `volume/vol.go`.
The Go nil-able slice `Weights []float64` becomes an `Option`. -/
structure VolumeOptions where
  Zero : Bool
  HasInitialValue : Bool
  InitialValue : ℚ
  Weights : Option (List ℚ)

/-- Zero value of `VolumeOptions` (Go `&VolumeOptions{}`). -/
def zeroVolumeOptions : VolumeOptions := ⟨false, false, 0, none⟩

/-- Option function `WithInitialValue`. -/
def WithInitialValue (value : ℚ) : VolumeOptions → VolumeOptions :=
  fun opts => { opts with HasInitialValue := true, InitialValue := value }

/-- Option function `WithZeros`. -/
def WithZeros : VolumeOptions → VolumeOptions :=
  fun opts => { opts with HasInitialValue := true, Zero := true }

/-- Option function `WithWeights`. -/
def WithWeights (ws : List ℚ) : VolumeOptions → VolumeOptions :=
  fun opts => { opts with Weights := some ws }

/-- Constructor `NewVolume` from `volume/vol.go`.  `none` models the explicit
panics of the weight-vector branch.  The Gaussian branch draws
`rand.NormFloat64() * sqrt(1/n)` from a shared generator; the already-scaled
draws are modelled as the abstract stream `randw`.  In the weight-vector
branch the checks guarantee `n = depth = ws.length`, so `copy(w, ws)` fills
the buffer with exactly `ws`. -/
def NewVolume (sx sy depth : Nat) (optFuncs : List (VolumeOptions → VolumeOptions))
    (randw : Nat → ℚ) : Option Volume :=
  let n := sx * sy * depth
  let opts := optFuncs.foldl (fun o f => f o) zeroVolumeOptions
  if opts.HasInitialValue then
    if !opts.Zero then
      some ⟨sx, sy, depth, List.replicate n opts.InitialValue, List.replicate n 0⟩
    else
      some ⟨sx, sy, depth, List.replicate n 0, List.replicate n 0⟩
  else
    match opts.Weights with
    | some ws =>
      if ws.length ≠ depth then none
      else if sx ≠ 1 then none
      else if sy ≠ 1 then none
      else some ⟨sx, sy, depth, ws, List.replicate n 0⟩
    | none => some ⟨sx, sy, depth, (List.range n).map randw, List.replicate n 0⟩

/-- Buffer size `n = sx*sy*depth` of a volume (the `n` field of the Go
struct, maintained as `sx*sy*depth` by the constructor). -/
def Volume.n (v : Volume) : Nat := v.sx * v.sy * v.depth

/-- In-place `dw[index] = val`, mirroring `SetGradByIndex` (writes in this
development stay within bounds; the Go runtime would panic otherwise). -/
def Volume.setGradByIndex (v : Volume) (i : Nat) (val : ℚ) : Volume :=
  { v with dw := v.dw.set i val }

/-- Flat-buffer `buf[i] += val`. -/
def listAdd (l : List ℚ) (i : Nat) (val : ℚ) : List ℚ :=
  l.set i (l.getD i 0 + val)

/-- In-place `dw[index] += val`, the index-addressed gradient add used as
`AddGradByIndex` by the convolution layer (the positional `AddGrad` in
`volume/vol.go` is `dw[getIndex(x,y,d)] += val`). -/
def Volume.addGradByIndex (v : Volume) (i : Nat) (val : ℚ) : Volume :=
  { v with dw := listAdd v.dw i val }

/-- Mirror of `ZeroGrad`: clears the first `n` gradient entries, i.e. the
whole gradient plane under the length invariant. -/
def Volume.zeroGrad (v : Volume) : Volume :=
  { v with dw := List.replicate v.n 0 }

/-- Sum of `f 0 + ... + f (n-1)`, the accumulator pattern of the source's
counting loops. -/
def qsum (n : Nat) (f : Nat → ℚ) : ℚ :=
  ((List.range n).map f).sum

/-- Convolution layer state from `convLayer` in the layers package: stride,
padding, declared output dimensions, one filter volume per output depth and
a 1×1×outZ bias volume. -/
structure ConvLayer where
  stride : Int
  padding : Int
  outX : Nat
  outY : Nat
  outZ : Nat
  filters : List Volume
  biases : Volume

/-- Output cell `(ax, ay, d)` of `convLayer.Forward`.  In the source the
window coordinates start at `-padding` and are incremented by `stride` at the
top of each loop body (`y += stride` precedes the inner loops), so at
iteration `ay` the window's top edge is `stride*(ay+1) - padding`, and
likewise for `ax`.  Positions outside the input bounds are skipped and the
filter's bias is added at the end. -/
def convForwardCell (l : ConvLayer) (vol : Volume) (ax ay d : Nat) : ℚ :=
  let f := l.filters.getD d emptyVolume
  let y : Int := -l.padding + l.stride * (ay + 1)
  let x : Int := -l.padding + l.stride * (ax + 1)
  qsum f.sy (fun fy =>
    qsum f.sx (fun fx =>
      let oy := y + fy
      let ox := x + fx
      if 0 ≤ oy ∧ oy < (vol.sy : Int) ∧ 0 ≤ ox ∧ ox < (vol.sx : Int) then
        qsum f.depth (fun fz =>
          f.w.getD ((f.sx * fy + fx) * f.depth + fz) 0
            * vol.w.getD ((vol.sx * oy.toNat + ox.toNat) * vol.depth + fz) 0)
      else 0))
  + l.biases.w.getD d 0

/-- The spec's description of the same output cell: cross-correlation of
filter `d` with the input window whose top-left corner is at input coordinate
`(stride*ax - padding, stride*ay - padding)`, positions outside the input
bounds contributing zero, plus bias `d`. -/
def specConvForwardCell (l : ConvLayer) (vol : Volume) (ax ay d : Nat) : ℚ :=
  let f := l.filters.getD d emptyVolume
  let y : Int := l.stride * ay - l.padding
  let x : Int := l.stride * ax - l.padding
  qsum f.sy (fun fy =>
    qsum f.sx (fun fx =>
      let oy := y + fy
      let ox := x + fx
      if 0 ≤ oy ∧ oy < (vol.sy : Int) ∧ 0 ≤ ox ∧ ox < (vol.sx : Int) then
        qsum f.depth (fun fz =>
          f.w.getD ((f.sx * fy + fx) * f.depth + fz) 0
            * vol.w.getD ((vol.sx * oy.toNat + ox.toNat) * vol.depth + fz) 0)
      else 0))
  + l.biases.w.getD d 0

/-- State mutated by `convLayer.Backward`: the filters' gradient planes, the
cached input's gradient plane and the bias gradients. -/
structure ConvBackState where
  filters : List Volume
  inVol : Volume
  biases : Volume
  deriving Repr, DecidableEq

/-- Write `val` into gradient cell `ix` of filter `d`. -/
def setFilterGrad (fs : List Volume) (d ix : Nat) (val : ℚ) : List Volume :=
  fs.set d ((fs.getD d emptyVolume).setGradByIndex ix val)

/-- Body of `convLayer.Backward` for one output cell `(ax, ay, d)`: for every
in-bounds filter position the source executes
`f.SetGradByIndex(ix2, inVol.w[ix1]*chainGrad)` and
`inVol.SetGradByIndex(ix1, f.w[ix2]*chainGrad)` (assignments, not
accumulations), with `ix1 = (vsy*oy + ox)*depth + fz` exactly as written in
the source (`vsy`, not `vsx`), and finally adds `chainGrad` to the bias
gradient of filter `d`. -/
def convBackwardCell (l : ConvLayer) (outVol : Volume) (st : ConvBackState)
    (d ay ax : Nat) : ConvBackState :=
  let f := st.filters.getD d emptyVolume
  let vsx := st.inVol.sx
  let vsy := st.inVol.sy
  let y : Int := -l.padding + l.stride * (ay + 1)
  let x : Int := -l.padding + l.stride * (ax + 1)
  let chainGrad := outVol.dw.getD ((outVol.sx * ay + ax) * outVol.depth + d) 0
  let st2 := (List.range f.sy).foldl (fun s1 (fy : Nat) =>
    (List.range f.sx).foldl (fun s2 (fx : Nat) =>
      let oy := y + (fy : Int)
      let ox := x + (fx : Int)
      if 0 ≤ oy ∧ oy < (vsy : Int) ∧ 0 ≤ ox ∧ ox < (vsx : Int) then
        (List.range f.depth).foldl (fun s3 (fz : Nat) =>
          let ix1 := (vsy * oy.toNat + ox.toNat) * s3.inVol.depth + fz
          let ix2 := (f.sx * fy + fx) * f.depth + fz
          { s3 with
            filters := setFilterGrad s3.filters d ix2 (s3.inVol.w.getD ix1 0 * chainGrad),
            inVol := s3.inVol.setGradByIndex ix1 (f.w.getD ix2 0 * chainGrad) }) s2
      else s2) s1) st
  { st2 with biases := st2.biases.addGradByIndex d chainGrad }

/-- Whole of `convLayer.Backward`: zero the cached input's gradient plane,
then sweep every output cell in source order. -/
def convBackward (l : ConvLayer) (inVol outVol : Volume) : ConvBackState :=
  let st0 : ConvBackState := ⟨l.filters, inVol.zeroGrad, l.biases⟩
  (List.range l.outZ).foldl (fun sd d =>
    (List.range l.outY).foldl (fun sa ay =>
      (List.range l.outX).foldl (fun sb ax =>
        convBackwardCell l outVol sb d ay ax) sa) sd) st0

/-- The spec's accumulated filter gradient at filter cell `(fy, fx, fz)` of
filter `d`: the sum of `input[pos] * upstreamGrad` over every valid window
position (the window offsets of the source's sweep), which is what repeated
`+=` into a zeroed gradient plane produces. -/
def specConvFilterGrad (l : ConvLayer) (inVol outVol : Volume)
    (d fy fx fz : Nat) : ℚ :=
  qsum l.outY (fun ay =>
    qsum l.outX (fun ax =>
      let y : Int := -l.padding + l.stride * (ay + 1)
      let x : Int := -l.padding + l.stride * (ax + 1)
      let oy := y + fy
      let ox := x + fx
      if 0 ≤ oy ∧ oy < (inVol.sy : Int) ∧ 0 ≤ ox ∧ ox < (inVol.sx : Int) then
        inVol.w.getD ((inVol.sx * oy.toNat + ox.toNat) * inVol.depth + fz) 0
          * outVol.dw.getD ((outVol.sx * ay + ax) * outVol.depth + d) 0
      else 0))

/-- Optimizer method enum, from the source's method constants (the source
spells Nesterov as `Netsterov`). -/
inductive Method
  | SGD | Adam | Adagrad | Windowgrad | Adadelta | Netsterov
  deriving DecidableEq, Repr

/-- Trainer hyperparameters, from the `Options` struct read by
`trainer.Train`. -/
structure Options where
  method : Method
  LearningRate : ℚ
  BatchSize : Nat
  Momentum : ℚ
  Ro : ℚ
  Eps : ℚ
  Beta1 : ℚ
  Beta2 : ℚ
  L1Decay : ℚ
  L2Decay : ℚ

/-- Defaults from `NewTrainer`:
`{SGD, 0.01, 1, 0.9, 0.95, 1e-8, 0.9, 0.999}`, decay coefficients zero. -/
def defaultOptions : Options :=
  ⟨.SGD, 1/100, 1, 9/10, 95/100, 1/100000000, 9/10, 999/1000, 0, 0⟩

/-- One trainable parameter group, from `LayerResponse`. -/
structure LayerResponse where
  Weights : List ℚ
  Gradients : List ℚ
  L1DecayMul : ℚ
  L2DecayMul : ℚ

/-- Mutable trainer state from the `trainer` struct: iteration counter `k`
and the `gsum`/`xsum` accumulator lists. -/
structure TrainerState where
  k : Nat
  gsum : List (List ℚ)
  xsum : List (List ℚ)
  deriving Repr, DecidableEq

/-- The per-parameter weight mutation selected by the optimizer dispatch.  In
the source every branch is an empty TODO stub, including the trailing
`// Assume SGD` branch, so each leaves the parameter unchanged. -/
def methodUpdate (meth : Method) (pj : ℚ) (_gij : ℚ) : ℚ :=
  match meth with
  | .Adam => pj
  | .Adagrad => pj
  | .Windowgrad => pj
  | .Adadelta => pj
  | .Netsterov => pj
  | .SGD => pj

/-- Per-group slice of the update loop in `trainer.Train`: accumulate the two
decay losses, form the batch-scaled gradient `gij`, and apply the (stub)
method update to each parameter.  The fold state is
`(l2DecayLoss, l1DecayLoss, updated weights so far)`. -/
def groupStep (opts : Options) (pg : LayerResponse) : ℚ × ℚ × List ℚ :=
  let l1Decay := opts.L1Decay * pg.L1DecayMul
  let l2Decay := opts.L2Decay * pg.L2DecayMul
  (List.range pg.Weights.length).foldl
    (fun st j =>
      let pj := pg.Weights.getD j 0
      let l2DecayLoss := st.1 + l2Decay * pj * pj / 2
      let l1DecayLoss := st.2.1 + l1Decay * |pj|
      let l1Grad := if pj ≤ 0 then -l1Decay else l1Decay
      let l2Grad := l2Decay * pj
      let gij := (l2Grad + l1Grad + pg.Gradients.getD j 0) / (opts.BatchSize : ℚ)
      (l2DecayLoss, l1DecayLoss, st.2.2 ++ [methodUpdate opts.method pj gij]))
    (0, 0, [])

/-- The post-backward tail of one `trainer.Train` call: increment `k`; on a
batch boundary, grow the accumulators when
`(len(gsum) == 0 && method == SGD) || momentum > 0.0` (the Go parse of the
source's guard) and run the update loop over every parameter group.  Returns
the new trainer state, the weight vectors of every group after the update
loop, and the pair `(l1DecayLoss, l2DecayLoss)`. -/
def trainStep (opts : Options) (t : TrainerState) (pgList : List LayerResponse) :
    TrainerState × List (List ℚ) × ℚ × ℚ :=
  let k := t.k + 1
  if k % opts.BatchSize = 0 then
    let alloc := (t.gsum.length = 0 ∧ opts.method = .SGD) ∨ 0 < opts.Momentum
    let gsum := if alloc then
        t.gsum ++ pgList.map (fun pg => List.replicate pg.Weights.length 0)
      else t.gsum
    let xsum := if alloc then
        t.xsum ++ pgList.map (fun pg =>
          if opts.method = .Adam ∨ opts.method = .Adadelta then
            List.replicate pg.Weights.length 0
          else [])
      else t.xsum
    let res := pgList.foldl
      (fun acc pg =>
        let g := groupStep opts pg
        (acc.1 + g.1, acc.2.1 + g.2.1, acc.2.2 ++ [g.2.2]))
      ((0 : ℚ), (0 : ℚ), ([] : List (List ℚ)))
    (⟨k, gsum, xsum⟩, res.2.2, res.2.1, res.1)
  else
    (⟨k, t.gsum, t.xsum⟩, pgList.map (fun pg => pg.Weights), 0, 0)

/-- The spec's SGD+momentum rule `v = momentum*v - lr*g; p += v`; returns the
updated parameter and velocity. -/
def sgdMomentumUpdate (momentum lr v g p : ℚ) : ℚ × ℚ :=
  let vNew := momentum * v - lr * g
  (p + vNew, vNew)

/-- Forward pass of `softmaxLayer.Forward`: track the running maximum of the
inputs, exponentiate the shifted values, and normalize so they sum to one.
`expF` abstracts `math.Exp` so the definition stays executable; the claims
instantiate it with `Real.exp`. -/
def softmaxForward {α : Type} [LinearOrderedField α] (expF : α → α)
    (as : List α) : List α :=
  let aMax := as.foldl (fun m a => if m < a then a else m) (as.getD 0 0)
  let es := as.map fun a => expF (a - aMax)
  let esum := es.sum
  es.map fun e => e / esum

/-- Loss and seeded input gradient of `softmaxLayer.Loss` over the saved
probability vector `es`: gradient `i` is `-(indicator - es[i])` and the
returned loss is `-log(es[index])`.  `logF` abstracts `math.Log`. -/
def softmaxLoss {α : Type} [Field α] (logF : α → α) (es : List α)
    (index : Nat) : α × List α :=
  (-(logF (es.getD index 0)),
   (List.range es.length).map fun i =>
     -((if i = index then (1 : α) else 0) - es.getD i 0))

/-- Loop body of `svmLayer.Loss` for class `i`: skip the ground truth,
compute `yDiff = -yScore + score[i] + margin`, and on a violation add it to
the loss and push `+1`/`-1` into the gradient buffer. -/
def svmStep (scores : List ℚ) (index : Nat) (yScore : ℚ) (st : ℚ × List ℚ)
    (i : Nat) : ℚ × List ℚ :=
  if i = index then st
  else
    let yDiff := -yScore + scores.getD i 0 + 1
    if 0 < yDiff then
      (st.1 + yDiff, listAdd (listAdd st.2 i 1) index (-1))
    else st

/-- Whole of `svmLayer.Loss`: reject an out-of-range class index (the source
panics), zero the input gradient plane, then sweep every class with margin
1.0.  Returns the loss and the seeded gradient plane. -/
def svmLoss (scores : List ℚ) (index : Nat) : Option (ℚ × List ℚ) :=
  if index < scores.length then
    some ((List.range scores.length).foldl
      (svmStep scores index (scores.getD index 0))
      (0, List.replicate scores.length 0))
  else none

/-- Decidable test for a margin-violating class: `j` differs from the ground
truth and `score[j] - score[index] + 1 > 0`. -/
def violatingB (scores : List ℚ) (index j : Nat) : Bool :=
  j != index && decide (0 < scores.getD j 0 - scores.getD index 0 + 1)

end Reticulum

namespace Reticulum

/-- Decomposition helper: the depth-innermost digit of a flat index. -/
theorem flatIndex_inj (sx depth x y d x' y' d' : Nat)
    (hx : x < sx) (hd : d < depth) (hx' : x' < sx) (hd' : d' < depth)
    (h : (sx * y + x) * depth + d = (sx * y' + x') * depth + d') :
    x = x' ∧ y = y' ∧ d = d' := by
  have hdep : 0 < depth := by omega
  have hmodd : d = d' := by
    have e1 : ((sx * y + x) * depth + d) % depth = d := by
      rw [Nat.mul_comm (sx * y + x) depth, Nat.mul_add_mod]; exact Nat.mod_eq_of_lt hd
    have e2 : ((sx * y' + x') * depth + d') % depth = d' := by
      rw [Nat.mul_comm (sx * y' + x') depth, Nat.mul_add_mod]; exact Nat.mod_eq_of_lt hd'
    rw [h] at e1; omega
  have hdivd : sx * y + x = sx * y' + x' := by
    have h2 : (sx * y + x) * depth = (sx * y' + x') * depth := by omega
    exact Nat.eq_of_mul_eq_mul_right hdep h2
  have hsx : 0 < sx := by omega
  have hmodx : x = x' := by
    have e1 : (sx * y + x) % sx = x := by
      rw [Nat.mul_add_mod]; exact Nat.mod_eq_of_lt hx
    have e2 : (sx * y' + x') % sx = x' := by
      rw [Nat.mul_add_mod]; exact Nat.mod_eq_of_lt hx'
    rw [hdivd] at e1; omega
  have hy : y = y' := by
    have h3 : sx * y = sx * y' := by omega
    exact Nat.eq_of_mul_eq_mul_left hsx h3
  exact ⟨hmodx, hy, hmodd⟩

/-- Range helper: an in-bounds coordinate yields a flat index below `n`. -/
theorem flatIndex_lt (sx sy depth x y d : Nat)
    (hx : x < sx) (hy : y < sy) (hd : d < depth) :
    (sx * y + x) * depth + d < sx * sy * depth := by
  have h1 : sx * y + x + 1 ≤ sx * sy := by
    calc sx * y + x + 1 ≤ sx * y + sx := by omega
    _ = sx * (y + 1) := by ring
    _ ≤ sx * sy := Nat.mul_le_mul_left sx hy
  calc (sx * y + x) * depth + d < (sx * y + x) * depth + depth := by omega
  _ = (sx * y + x + 1) * depth := by ring
  _ ≤ sx * sy * depth := Nat.mul_le_mul_right depth h1

/-- Casting helper: at natural coordinates the flat index is the natural
row-major index. -/
theorem getIndex_natCast (v : Volume) (a b c : Nat) :
    v.getIndex (a : Int) (b : Int) (c : Int) = ((v.sx * b + a) * v.depth + c : Nat) := by
  simp only [Volume.getIndex]
  push_cast
  ring

/-- C7: for all in-bounds coordinates the flat index `(sx*y + x)*depth + d` is
nonnegative, lands below `sx*sy*depth`, is injective on in-bounds coordinate
triples, and `Set` followed by `Get` at the same coordinate returns the
written value. -/
theorem volume_index_injective_set_get
    (v : Volume) (hw : v.w.length = v.sx * v.sy * v.depth)
    (x y d x' y' d' : Nat) (val : ℚ)
    (hx : x < v.sx) (hy : y < v.sy) (hd : d < v.depth)
    (hx' : x' < v.sx) (hy' : y' < v.sy) (hd' : d' < v.depth) :
    (0 ≤ v.getIndex x y d ∧ (v.getIndex x y d).toNat < v.sx * v.sy * v.depth)
    ∧ (v.getIndex x y d = v.getIndex x' y' d' → x = x' ∧ y = y' ∧ d = d')
    ∧ (v.Set? x y d val).bind (fun v2 => v2.Get? x y d) = some val := by
  have key := getIndex_natCast v x y d
  have key' := getIndex_natCast v x' y' d'
  have hnn : 0 ≤ v.getIndex x y d := by rw [key]; exact Int.natCast_nonneg _
  have htn : (v.getIndex x y d).toNat = (v.sx * y + x) * v.depth + d := by
    rw [key]; exact Int.toNat_natCast _
  have hlt : (v.getIndex x y d).toNat < v.sx * v.sy * v.depth := by
    rw [htn]; exact flatIndex_lt v.sx v.sy v.depth x y d hx hy hd
  refine ⟨⟨hnn, hlt⟩, ?_, ?_⟩
  · intro h
    rw [key, key'] at h
    exact flatIndex_inj v.sx v.depth x y d x' y' d' hx hd hx' hd' (by exact_mod_cast h)
  · have hltw : (v.getIndex x y d).toNat < v.w.length := by rw [hw]; exact hlt
    have hcond : 0 ≤ v.getIndex x y d ∧ (v.getIndex x y d).toNat < v.w.length :=
      ⟨hnn, hltw⟩
    simp only [Volume.Set?, Volume.Get?]
    rw [if_pos hcond]
    simp only [Option.some_bind]
    have hgi : ({ v with w := v.w.set (v.getIndex x y d).toNat val } : Volume).getIndex x y d
        = v.getIndex x y d := rfl
    rw [hgi, if_pos hnn]
    exact List.getElem?_set_eq_of_lt val hltw

/-- Witness for C7 on a concrete 2×2×2 volume. -/
theorem volume_index_injective_set_get_witness :
    (0 ≤ (Volume.mk 2 2 2 (List.replicate 8 0) (List.replicate 8 0)).getIndex 1 1 1
      ∧ ((Volume.mk 2 2 2 (List.replicate 8 0) (List.replicate 8 0)).getIndex 1 1 1).toNat < 2 * 2 * 2)
    ∧ ((Volume.mk 2 2 2 (List.replicate 8 0) (List.replicate 8 0)).getIndex 1 1 1
        = (Volume.mk 2 2 2 (List.replicate 8 0) (List.replicate 8 0)).getIndex 1 1 1
        → 1 = 1 ∧ 1 = 1 ∧ 1 = 1)
    ∧ ((Volume.mk 2 2 2 (List.replicate 8 0) (List.replicate 8 0)).Set? 1 1 1 5).bind
        (fun v2 => v2.Get? 1 1 1) = some 5 :=
  volume_index_injective_set_get ⟨2, 2, 2, List.replicate 8 0, List.replicate 8 0⟩
    (by decide) 1 1 1 1 1 1 5 (by decide) (by decide) (by decide)
    (by decide) (by decide) (by decide)

/-- C8: with an explicit weight vector (and no initial-value option),
`NewVolume` fails exactly when the vector length differs from the depth or
`sx ≠ 1` or `sy ≠ 1`, and for a 1×1×depth volume it copies the vector into
the weight plane. -/
theorem newVolume_withWeights_validation (sx sy depth : Nat) (ws : List ℚ)
    (randw : Nat → ℚ) :
    (NewVolume sx sy depth [WithWeights ws] randw = none ↔
      (ws.length ≠ depth ∨ sx ≠ 1 ∨ sy ≠ 1))
    ∧ (ws.length = depth → sx = 1 → sy = 1 →
        NewVolume sx sy depth [WithWeights ws] randw
          = some ⟨1, 1, depth, ws, List.replicate depth 0⟩) := by
  constructor
  · by_cases h1 : ws.length = depth <;> by_cases h2 : sx = 1 <;> by_cases h3 : sy = 1 <;>
      simp [NewVolume, WithWeights, zeroVolumeOptions, h1, h2, h3]
  · intro h1 h2 h3
    subst h2; subst h3
    simp [NewVolume, WithWeights, zeroVolumeOptions, h1]

/-- Witness for C8: a valid 1×1×2 explicit-weights construction succeeds and
copies the vector. -/
theorem newVolume_withWeights_validation_witness :
    NewVolume 1 1 2 [WithWeights [3, 4]] (fun _ => 0)
      = some ⟨1, 1, 2, [3, 4], List.replicate 2 0⟩ :=
  (newVolume_withWeights_validation 1 1 2 [3, 4] (fun _ => 0)).2 rfl rfl rfl

/-- C9: when an initial-value option (`WithInitialValue` or `WithZeros`) is
combined with `WithWeights`, in either order, the weight vector is silently
ignored: the weight plane is filled from the initial value, the vector shape
validation never runs, and construction always succeeds. -/
theorem newVolume_initialValue_ignores_weights (sx sy depth : Nat) (val : ℚ)
    (ws : List ℚ) (randw : Nat → ℚ) :
    NewVolume sx sy depth [WithInitialValue val, WithWeights ws] randw
      = some ⟨sx, sy, depth, List.replicate (sx * sy * depth) val,
          List.replicate (sx * sy * depth) 0⟩
    ∧ NewVolume sx sy depth [WithWeights ws, WithInitialValue val] randw
      = some ⟨sx, sy, depth, List.replicate (sx * sy * depth) val,
          List.replicate (sx * sy * depth) 0⟩
    ∧ NewVolume sx sy depth [WithZeros, WithWeights ws] randw
      = some ⟨sx, sy, depth, List.replicate (sx * sy * depth) 0,
          List.replicate (sx * sy * depth) 0⟩
    ∧ NewVolume sx sy depth [WithWeights ws, WithZeros] randw
      = some ⟨sx, sy, depth, List.replicate (sx * sy * depth) 0,
          List.replicate (sx * sy * depth) 0⟩ :=
  ⟨rfl, rfl, rfl, rfl⟩

/-- C10: the positional accessors perform no per-coordinate bounds check:
whenever the computed flat index lands in `[0, n)` the access succeeds, and
in particular on a width-1 volume the out-of-range coordinate `(1, 0, d)`
aliases the in-bounds cell `(0, 1, d)`: writing through the former is read
back through the latter. -/
theorem volume_access_unchecked_aliasing
    (v : Volume) (hw : v.w.length = v.sx * v.sy * v.depth)
    (hsx : v.sx = 1) (hsy : 2 ≤ v.sy) (d : Nat) (hd : d < v.depth) (val : ℚ) :
    (v.getIndex 1 0 (d : Int) = v.getIndex 0 1 (d : Int))
    ∧ (v.Set? 1 0 (d : Int) val).isSome = true
    ∧ (v.Set? 1 0 (d : Int) val).bind (fun v2 => v2.Get? 0 1 (d : Int)) = some val
    ∧ (∀ x y dd : Int, 0 ≤ v.getIndex x y dd →
        (v.getIndex x y dd).toNat < v.w.length → (v.Get? x y dd).isSome = true) := by
  have halias : v.getIndex 1 0 (d : Int) = v.getIndex 0 1 (d : Int) := by
    simp [Volume.getIndex, hsx]
  have hidx : v.getIndex 1 0 (d : Int) = ((v.depth + d : Nat) : Int) := by
    simp only [Volume.getIndex, hsx]
    push_cast
    ring
  have hnn : 0 ≤ v.getIndex 1 0 (d : Int) := by rw [hidx]; exact Int.natCast_nonneg _
  have htn : (v.getIndex 1 0 (d : Int)).toNat = v.depth + d := by
    rw [hidx]; exact Int.toNat_natCast _
  have hlt : (v.getIndex 1 0 (d : Int)).toNat < v.w.length := by
    rw [htn, hw, hsx, Nat.one_mul]
    calc v.depth + d < v.depth + v.depth := by omega
    _ = 2 * v.depth := by ring
    _ ≤ v.sy * v.depth := Nat.mul_le_mul_right v.depth hsy
  have hcond : 0 ≤ v.getIndex 1 0 (d : Int) ∧ (v.getIndex 1 0 (d : Int)).toNat < v.w.length :=
    ⟨hnn, hlt⟩
  refine ⟨halias, ?_, ?_, ?_⟩
  · simp only [Volume.Set?]
    rw [if_pos hcond]
    rfl
  · simp only [Volume.Set?, Volume.Get?]
    rw [if_pos hcond]
    simp only [Option.some_bind]
    have : ({ v with w := v.w.set (v.getIndex 1 0 (d : Int)).toNat val } : Volume).getIndex 0 1 (d : Int)
        = v.getIndex 1 0 (d : Int) := halias.symm
    rw [this, if_pos hnn]
    exact List.getElem?_set_eq_of_lt val hlt
  · intro x y dd h0 hri
    simp only [Volume.Get?]
    rw [if_pos h0]
    rw [List.getElem?_eq_getElem hri]
    rfl

/-- Witness for C10 on a concrete 1×2×1 volume. -/
theorem volume_access_unchecked_aliasing_witness :
    ((Volume.mk 1 2 1 [5, 6] [0, 0]).getIndex 1 0 ((0 : Nat) : Int)
      = (Volume.mk 1 2 1 [5, 6] [0, 0]).getIndex 0 1 ((0 : Nat) : Int))
    ∧ ((Volume.mk 1 2 1 [5, 6] [0, 0]).Set? 1 0 ((0 : Nat) : Int) 9).isSome = true
    ∧ ((Volume.mk 1 2 1 [5, 6] [0, 0]).Set? 1 0 ((0 : Nat) : Int) 9).bind
        (fun v2 => v2.Get? 0 1 ((0 : Nat) : Int)) = some 9
    ∧ (∀ x y dd : Int, 0 ≤ (Volume.mk 1 2 1 [5, 6] [0, 0]).getIndex x y dd →
        ((Volume.mk 1 2 1 [5, 6] [0, 0]).getIndex x y dd).toNat
          < (Volume.mk 1 2 1 [5, 6] [0, 0]).w.length →
        ((Volume.mk 1 2 1 [5, 6] [0, 0]).Get? x y dd).isSome = true) :=
  volume_access_unchecked_aliasing ⟨1, 2, 1, [5, 6], [0, 0]⟩
    (by decide) (by decide) (by decide) 0 (by decide) 9

/-- C1: the claim's window placement fails on the code.  On a 1×1×1 input
with the single weight 1, a single 1×1×1 filter with weight 1, stride 1,
padding 0 and bias 0, the source's Forward produces 0 for output cell
`(0,0,0)` — its window starts at `stride*(pos+1) - padding = 1`, outside the
input, so only the bias remains — while a window at `stride*pos - padding
= 0`, as the claim states, yields 1. -/
theorem convForward_window_offset_bug :
    convForwardCell ⟨1, 0, 1, 1, 1, [⟨1, 1, 1, [1], [0]⟩], ⟨1, 1, 1, [0], [0]⟩⟩
        ⟨1, 1, 1, [1], [0]⟩ 0 0 0 = 0
    ∧ specConvForwardCell ⟨1, 0, 1, 1, 1, [⟨1, 1, 1, [1], [0]⟩], ⟨1, 1, 1, [0], [0]⟩⟩
        ⟨1, 1, 1, [1], [0]⟩ 0 0 0 = 1
    ∧ (0 : ℚ) ≠ 1 := by with_unfolding_all decide

/-- C2: the claim's accumulation (`+=`) fails on the code, which assigns
(`=`) into the filter and input gradient planes.  On a 3×3×1 all-ones input,
a single 1×1×1 filter, stride 1, padding 0 and all upstream gradients 1,
four window positions are valid, so accumulation would leave filter gradient
4; the source's repeated assignment leaves 1 (the last write).  The bias
gradient does accumulate, summing the nine upstream gradients to 9. -/
theorem convBackward_overwrite_bug :
    ((convBackward ⟨1, 0, 3, 3, 1, [⟨1, 1, 1, [1], [0]⟩], ⟨1, 1, 1, [0], [0]⟩⟩
        ⟨3, 3, 1, List.replicate 9 1, List.replicate 9 0⟩
        ⟨3, 3, 1, List.replicate 9 0, List.replicate 9 1⟩).filters.getD 0
          emptyVolume).dw = [1]
    ∧ specConvFilterGrad ⟨1, 0, 3, 3, 1, [⟨1, 1, 1, [1], [0]⟩], ⟨1, 1, 1, [0], [0]⟩⟩
        ⟨3, 3, 1, List.replicate 9 1, List.replicate 9 0⟩
        ⟨3, 3, 1, List.replicate 9 0, List.replicate 9 1⟩ 0 0 0 0 = 4
    ∧ (convBackward ⟨1, 0, 3, 3, 1, [⟨1, 1, 1, [1], [0]⟩], ⟨1, 1, 1, [0], [0]⟩⟩
        ⟨3, 3, 1, List.replicate 9 1, List.replicate 9 0⟩
        ⟨3, 3, 1, List.replicate 9 0, List.replicate 9 1⟩).biases.dw = [9]
    ∧ (1 : ℚ) ≠ 4 := by with_unfolding_all decide

/-- C3: the claim's SGD+momentum mutation fails on the code, whose optimizer
dispatch (including the SGD branch) is an empty stub.  With the default
options (SGD, learning rate 0.01, batch size 1, momentum 0.9), one group
with `p = [1]`, raw gradient `[1]` and zero decay multipliers, the first
training step leaves the parameter at 1, while the spec's rule
`v = 0.9*0 - 0.01*1; p += v` yields 0.99. -/
theorem trainStep_sgd_no_update_bug :
    trainStep defaultOptions ⟨0, [], []⟩ [⟨[1], [1], 0, 0⟩]
      = (⟨1, [[0]], [[]]⟩, [[1]], 0, 0)
    ∧ (sgdMomentumUpdate (9/10) (1/100) 0 1 1).1 = 99/100
    ∧ ((99 : ℚ)/100) ≠ 1 := by with_unfolding_all decide

/-- C4: the claim's allocate-once invariant fails on the code.  The guard
`len(gsum) == 0 && method == SGD || momentum > 0.0` parses with `&&` binding
tighter than `||`, so with the default momentum 0.9 it re-triggers on every
batch-boundary step: with batch size 1 and one parameter group, `gsum` holds
one accumulator after the first step and two after the second, contradicting
the source's own comment that allocation happens only once. -/
theorem trainStep_accumulator_regrowth_bug :
    ((trainStep defaultOptions ⟨0, [], []⟩ [⟨[1], [1], 0, 0⟩]).1).gsum = [[0]]
    ∧ ((trainStep defaultOptions
        ((trainStep defaultOptions ⟨0, [], []⟩ [⟨[1], [1], 0, 0⟩]).1)
        [⟨[1], [1], 0, 0⟩]).1).gsum = [[0], [0]]
    ∧ ([[0], [0]] : List (List ℚ)).length ≠ 1 := by with_unfolding_all decide

/-- Summing a list divided elementwise by a constant divides the sum. -/
theorem sum_map_div {α : Type} [DivisionRing α] (l : List α) (c : α) :
    (l.map fun x => x / c).sum = l.sum / c := by
  induction l with
  | nil => simp
  | cons a t ih => simp [ih, add_div]

/-- C5: over exact real arithmetic the softmax forward output is elementwise
nonnegative and sums to 1 for every nonempty input, `Loss(i)` returns
`-log(output[i])`, and the seeded gradient at every index `j` is
`output[j] - 1{j=index}`. -/
theorem softmax_forward_loss_spec (as : List ℝ) (index : Nat)
    (hne : 0 < as.length) (hidx : index < as.length) :
    (∀ p ∈ softmaxForward Real.exp as, 0 ≤ p)
    ∧ (softmaxForward Real.exp as).sum = 1
    ∧ (softmaxLoss Real.log (softmaxForward Real.exp as) index).1
        = -Real.log ((softmaxForward Real.exp as).getD index 0)
    ∧ (∀ j : Nat, j < as.length →
        (softmaxLoss Real.log (softmaxForward Real.exp as) index).2.getD j 0
          = (softmaxForward Real.exp as).getD j 0
              - (if j = index then 1 else 0)) := by
  have hout : softmaxForward Real.exp as
      = (as.map fun a =>
          Real.exp (a - as.foldl (fun m a => if m < a then a else m) (as.getD 0 0))).map
        (fun e =>
          e / (as.map fun a =>
            Real.exp (a - as.foldl (fun m a => if m < a then a else m) (as.getD 0 0))).sum) :=
    rfl
  set E := as.map fun a =>
    Real.exp (a - as.foldl (fun m a => if m < a then a else m) (as.getD 0 0)) with hE
  have hlenE : E.length = as.length := by rw [hE]; exact List.length_map as _
  have hEpos : ∀ e ∈ E, 0 < e := by
    intro e he
    rw [hE] at he
    obtain ⟨a, _, rfl⟩ := List.mem_map.1 he
    exact Real.exp_pos _
  have hEne : E ≠ [] := by
    intro hnil
    rw [hnil] at hlenE
    simp at hlenE
    omega
  have hs : 0 < E.sum := List.sum_pos E hEpos hEne
  have hlenout : (softmaxForward Real.exp as).length = as.length := by
    rw [hout, List.length_map, hlenE]
  refine ⟨?_, ?_, rfl, ?_⟩
  · intro p hp
    rw [hout] at hp
    obtain ⟨e, he, rfl⟩ := List.mem_map.1 hp
    exact div_nonneg (hEpos e he).le hs.le
  · rw [hout, sum_map_div, div_self hs.ne']
  · intro j hj
    have hj' : j < (softmaxForward Real.exp as).length := by rw [hlenout]; exact hj
    show ((List.range (softmaxForward Real.exp as).length).map fun i =>
        -((if i = index then (1 : ℝ) else 0)
            - (softmaxForward Real.exp as).getD i 0)).getD j 0
      = (softmaxForward Real.exp as).getD j 0 - (if j = index then 1 else 0)
    rw [List.getD_eq_getElem?_getD, List.getElem?_map, List.getElem?_range hj']
    simp only [Option.map_some', Option.getD_some]
    ring

/-- Witness for C5 at the concrete input `[0, 1]` with class index 0. -/
theorem softmax_forward_loss_spec_witness :
    (∀ p ∈ softmaxForward Real.exp [(0 : ℝ), 1], 0 ≤ p)
    ∧ (softmaxForward Real.exp [(0 : ℝ), 1]).sum = 1
    ∧ (softmaxLoss Real.log (softmaxForward Real.exp [(0 : ℝ), 1]) 0).1
        = -Real.log ((softmaxForward Real.exp [(0 : ℝ), 1]).getD 0 0)
    ∧ (∀ j : Nat, j < ([(0 : ℝ), 1] : List ℝ).length →
        (softmaxLoss Real.log (softmaxForward Real.exp [(0 : ℝ), 1]) 0).2.getD j 0
          = (softmaxForward Real.exp [(0 : ℝ), 1]).getD j 0
              - (if j = 0 then 1 else 0)) :=
  softmax_forward_loss_spec [0, 1] 0 (by decide) (by decide)

/-- Reading any position of an all-zero buffer yields zero. -/
theorem getD_replicate_zero (n j : Nat) : (List.replicate n (0 : ℚ)).getD j 0 = 0 := by
  rw [List.getD_eq_getElem?_getD, List.getElem?_replicate]
  split <;> rfl

/-- An in-place add keeps the buffer length. -/
theorem listAdd_length (l : List ℚ) (i : Nat) (v : ℚ) :
    (listAdd l i v).length = l.length := by
  simp [listAdd]

/-- Reading back the cell an in-place add targeted. -/
theorem listAdd_getD_self (l : List ℚ) (i : Nat) (v : ℚ) (h : i < l.length) :
    (listAdd l i v).getD i 0 = l.getD i 0 + v := by
  simp only [listAdd]
  rw [List.getD_eq_getElem?_getD, List.getElem?_set_eq_of_lt _ h]
  rfl

/-- An in-place add leaves every other cell unchanged. -/
theorem listAdd_getD_ne (l : List ℚ) (i j : Nat) (v : ℚ) (h : j ≠ i) :
    (listAdd l i v).getD j 0 = l.getD j 0 := by
  simp only [listAdd]
  rw [List.getD_eq_getElem?_getD, List.getElem?_set_ne (Ne.symm h),
    ← List.getD_eq_getElem?_getD]

/-- Unfolding of the margin-violation test. -/
theorem violatingB_iff (scores : List ℚ) (index j : Nat) :
    violatingB scores index j = true ↔
      j ≠ index ∧ 0 < scores.getD j 0 - scores.getD index 0 + 1 := by
  simp [violatingB]

/-- The ground-truth class never violates its own margin. -/
theorem violatingB_self (scores : List ℚ) (index : Nat) :
    violatingB scores index index = false := by
  simp [violatingB]

/-- Invariant of the class sweep in `svmLayer.Loss`: after processing classes
`0..k-1` the accumulated loss is the sum of the margin violations seen so
far, the gradient buffer keeps its length, each violating class seen so far
holds gradient `+1`, the ground truth holds minus the number of violators
seen, and everything else is still zero. -/
theorem svmFold_invariant (scores : List ℚ) (index : Nat)
    (hidx : index < scores.length) :
    ∀ k, k ≤ scores.length →
      ((List.range k).foldl (svmStep scores index (scores.getD index 0))
          (0, List.replicate scores.length 0)).1
        = (((List.range k).filter (violatingB scores index)).map
            (fun j => scores.getD j 0 - scores.getD index 0 + 1)).sum
      ∧ ((List.range k).foldl (svmStep scores index (scores.getD index 0))
          (0, List.replicate scores.length 0)).2.length = scores.length
      ∧ (∀ j : Nat,
          ((List.range k).foldl (svmStep scores index (scores.getD index 0))
            (0, List.replicate scores.length 0)).2.getD j 0
            = if j = index then
                -((((List.range k).filter (violatingB scores index)).length : ℕ) : ℚ)
              else if j < k ∧ violatingB scores index j = true then 1 else 0) := by
  intro k
  induction k with
  | zero =>
    intro _
    refine ⟨by simp, by simp, ?_⟩
    intro j
    simp only [List.range_zero, List.foldl_nil, List.filter_nil, List.length_nil]
    rw [getD_replicate_zero]
    by_cases hj : j = index
    · simp [hj]
    · simp [hj]
  | succ k ih =>
    intro hk
    obtain ⟨ih1, ih2, ih3⟩ := ih (by omega)
    have hkn : k < scores.length := by omega
    rw [List.range_succ, List.foldl_append, List.filter_append,
      List.foldl_cons, List.foldl_nil]
    by_cases hkidx : k = index
    · have hvk : violatingB scores index k = false := by rw [hkidx]; exact violatingB_self _ _
      have hstep : svmStep scores index (scores.getD index 0)
          ((List.range k).foldl (svmStep scores index (scores.getD index 0))
            (0, List.replicate scores.length 0)) k
          = (List.range k).foldl (svmStep scores index (scores.getD index 0))
            (0, List.replicate scores.length 0) := by
        simp [svmStep, hkidx]
      rw [hstep]
      have hfilt : List.filter (violatingB scores index) [k] = [] := by simp [hvk]
      rw [hfilt, List.append_nil]
      refine ⟨ih1, ih2, ?_⟩
      intro j
      rw [ih3 j]
      by_cases hj : j = index
      · rw [if_pos hj, if_pos hj]
      · rw [if_neg hj, if_neg hj]
        have hjk : j ≠ k := fun h => hj (h.trans hkidx)
        exact if_congr ⟨fun ⟨h1, h2⟩ => ⟨by omega, h2⟩, fun ⟨h1, h2⟩ => ⟨by omega, h2⟩⟩ rfl rfl
    · have hbridge : -(scores.getD index 0) + scores.getD k 0 + 1
          = scores.getD k 0 - scores.getD index 0 + 1 := by ring
      by_cases hv : 0 < scores.getD k 0 - scores.getD index 0 + 1
      · -- class k violates the margin
        have hvk : violatingB scores index k = true :=
          (violatingB_iff scores index k).2 ⟨hkidx, hv⟩
        have hstep : svmStep scores index (scores.getD index 0)
            ((List.range k).foldl (svmStep scores index (scores.getD index 0))
              (0, List.replicate scores.length 0)) k
            = (((List.range k).foldl (svmStep scores index (scores.getD index 0))
                  (0, List.replicate scores.length 0)).1
                + (-(scores.getD index 0) + scores.getD k 0 + 1),
               listAdd (listAdd ((List.range k).foldl
                  (svmStep scores index (scores.getD index 0))
                  (0, List.replicate scores.length 0)).2 k 1) index (-1)) := by
          simp only [svmStep, if_neg hkidx]
          rw [if_pos (by rw [hbridge]; exact hv)]
        rw [hstep]
        have hfilt : List.filter (violatingB scores index) [k] = [k] := by simp [hvk]
        rw [hfilt]
        have hlen1 : (listAdd ((List.range k).foldl
            (svmStep scores index (scores.getD index 0))
            (0, List.replicate scores.length 0)).2 k 1).length = scores.length := by
          rw [listAdd_length]; exact ih2
        refine ⟨?_, ?_, ?_⟩
        · rw [ih1, List.map_append, List.sum_append, List.map_singleton,
            List.sum_singleton, hbridge]
        · rw [listAdd_length, hlen1]
        · intro j
          by_cases hj : j = index
          · subst hj
            rw [listAdd_getD_self _ _ _ (by rw [hlen1]; exact hidx)]
            rw [listAdd_getD_ne _ _ _ _ (fun h => hkidx h.symm)]
            rw [ih3 j, if_pos rfl, if_pos rfl]
            rw [List.length_append, List.length_singleton]
            push_cast
            ring
          · rw [listAdd_getD_ne _ _ _ _ hj]
            by_cases hjk : j = k
            · subst hjk
              rw [listAdd_getD_self _ _ _ (by rw [ih2]; exact hkn)]
              rw [ih3 j, if_neg hj, if_neg (by omega : ¬(j < j ∧ violatingB scores index j = true))]
              rw [if_neg hj, if_pos ⟨by omega, hvk⟩]
              ring
            · rw [listAdd_getD_ne _ _ _ _ hjk]
              rw [ih3 j, if_neg hj, if_neg hj]
              exact if_congr ⟨fun ⟨h1, h2⟩ => ⟨by omega, h2⟩,
                fun ⟨h1, h2⟩ => ⟨by omega, h2⟩⟩ rfl rfl
      · -- class k satisfies the margin
        have hvk : violatingB scores index k = false := by
          rw [← Bool.not_eq_true]
          intro hc
          exact hv ((violatingB_iff scores index k).1 hc).2
        have hstep : svmStep scores index (scores.getD index 0)
            ((List.range k).foldl (svmStep scores index (scores.getD index 0))
              (0, List.replicate scores.length 0)) k
            = (List.range k).foldl (svmStep scores index (scores.getD index 0))
              (0, List.replicate scores.length 0) := by
          simp only [svmStep, if_neg hkidx]
          rw [if_neg (by rw [hbridge]; exact hv)]
        rw [hstep]
        have hfilt : List.filter (violatingB scores index) [k] = [] := by simp [hvk]
        rw [hfilt, List.append_nil]
        refine ⟨ih1, ih2, ?_⟩
        intro j
        rw [ih3 j]
        by_cases hj : j = index
        · rw [if_pos hj, if_pos hj]
        · rw [if_neg hj, if_neg hj]
          by_cases hjk : j = k
          · subst hjk
            rw [if_neg (by omega : ¬(j < j ∧ violatingB scores index j = true)),
              if_neg (fun h => by rw [hvk] at h; exact Bool.false_ne_true h.2)]
          · exact if_congr ⟨fun ⟨h1, h2⟩ => ⟨by omega, h2⟩,
              fun ⟨h1, h2⟩ => ⟨by omega, h2⟩⟩ rfl rfl

/-- C6: for a valid class index, `svmLayer.Loss` returns the sum of the
positive margin violations `score[j] - score[index] + 1` over the classes
`j ≠ index` — in particular exactly 0 when the true class outscores every
other class by at least the margin 1.0 — and seeds the gradient with `+1` at
every violating class and `-1` per violation at the true class, zero
elsewhere. -/
theorem svm_loss_spec (scores : List ℚ) (index : Nat)
    (hidx : index < scores.length) :
    ∃ L g, svmLoss scores index = some (L, g)
    ∧ L = (((List.range scores.length).filter (violatingB scores index)).map
            (fun j => scores.getD j 0 - scores.getD index 0 + 1)).sum
    ∧ ((∀ j, j < scores.length → j ≠ index →
          scores.getD j 0 + 1 ≤ scores.getD index 0) → L = 0)
    ∧ (∀ j, j < scores.length → j ≠ index →
          g.getD j 0 = if violatingB scores index j = true then (1 : ℚ) else 0)
    ∧ g.getD index 0
        = -((((List.range scores.length).filter
            (violatingB scores index)).length : ℕ) : ℚ) := by
  obtain ⟨inv1, inv2, inv3⟩ := svmFold_invariant scores index hidx scores.length le_rfl
  refine ⟨((List.range scores.length).foldl
      (svmStep scores index (scores.getD index 0))
      (0, List.replicate scores.length 0)).1,
    ((List.range scores.length).foldl
      (svmStep scores index (scores.getD index 0))
      (0, List.replicate scores.length 0)).2, ?_, inv1, ?_, ?_, ?_⟩
  · simp only [svmLoss]
    rw [if_pos hidx]
  · intro hno
    have hfilt : (List.range scores.length).filter (violatingB scores index) = [] := by
      rw [List.filter_eq_nil_iff]
      intro a ha hva
      obtain ⟨hane, hpos⟩ := (violatingB_iff scores index a).1 hva
      have := hno a (List.mem_range.1 ha) hane
      linarith
    rw [inv1, hfilt]
    simp
  · intro j hjn hj
    rw [inv3 j, if_neg hj]
    exact if_congr (and_iff_right hjn) rfl rfl
  · rw [inv3 index, if_pos rfl]

/-- Witness for C6 at the concrete scores `[0, 2]` with class index 0 (where
class 1 violates the margin by 3). -/
theorem svm_loss_spec_witness :
    ∃ L g, svmLoss [0, 2] 0 = some (L, g)
    ∧ L = (((List.range ([0, 2] : List ℚ).length).filter (violatingB [0, 2] 0)).map
            (fun j => ([0, 2] : List ℚ).getD j 0 - ([0, 2] : List ℚ).getD 0 0 + 1)).sum
    ∧ ((∀ j, j < ([0, 2] : List ℚ).length → j ≠ 0 →
          ([0, 2] : List ℚ).getD j 0 + 1 ≤ ([0, 2] : List ℚ).getD 0 0) → L = 0)
    ∧ (∀ j, j < ([0, 2] : List ℚ).length → j ≠ 0 →
          g.getD j 0 = if violatingB [0, 2] 0 j = true then (1 : ℚ) else 0)
    ∧ g.getD 0 0
        = -((((List.range ([0, 2] : List ℚ).length).filter
            (violatingB [0, 2] 0)).length : ℕ) : ℚ) :=
  svm_loss_spec [0, 2] 0 (by decide)

end Reticulum
